import Mathlib

/-!
Verification of the dictionary module (`Dict`).

Shallow embedding of the sorted dictionary store of the bot: the module keeps
a JSON-backed array of entries sorted under a locale comparator, looks entries
up by binary search (`getIndexOf` / `findDictionaryEntry`), inserts via the
`/define` handler (append, full re-sort, flush), and scans definitions for a
substring via the `/index` handler.

The JavaScript array of records becomes a `List Entry`; the handlers become
pure functions from the current list (plus the user-supplied strings) to the
new list and the reply string.  The asynchronous flush is recorded as the
snapshot of the data handed to the write, since the write itself is I/O.
-/

/-- One dictionary record: the on-disk JSON objects carry the fields
`entry` (the key), `definition` and `author`. -/
structure Entry where
  entry : String
  definition : String
  author : String
deriving DecidableEq

/-- The function `findDictionaryEntry` returns an object literal with exactly the fields
`author` and `definition` (in the source it is `{ "author": ..., "definition": ... }`). -/
structure FindResult where
  author : String
  definition : String
deriving DecidableEq

/-! ## Model of the JavaScript string builtins the module calls

The module calls `String.prototype.localeCompare` with
`{ sensitivity: 'accent' }`, `trim`, `toLowerCase` and `includes`.  These are
ECMAScript builtins, not repository code, so they are modelled here after
their documented semantics, restricted to the characters this development
exercises (ASCII plus precomposed Latin-1 letters). -/

/-- Case folding: ASCII upper → lower, and the Latin-1 uppercase accented
letters `À`..`Þ` (except `×`) to their lowercase forms.  Models the case
folding performed both by `toLowerCase` and by collation below the case
level. -/
def foldCase (c : Char) : Char :=
  if c.isUpper then c.toLower
  else if 0xC0 ≤ c.toNat ∧ c.toNat ≤ 0xDE ∧ c.toNat ≠ 0xD7 then Char.ofNat (c.toNat + 0x20)
  else c

/-- Base letter of a (lowercase) Latin-1 accented letter: the collation
primary key, `é ↦ e`, `ü ↦ u`, ... ; unaccented characters map to themselves. -/
def baseChar (c : Char) : Char :=
  match c with
  | 'à' | 'á' | 'â' | 'ã' | 'ä' | 'å' => 'a'
  | 'è' | 'é' | 'ê' | 'ë' => 'e'
  | 'ì' | 'í' | 'î' | 'ï' => 'i'
  | 'ò' | 'ó' | 'ô' | 'õ' | 'ö' => 'o'
  | 'ù' | 'ú' | 'û' | 'ü' => 'u'
  | 'ç' => 'c'
  | 'ñ' => 'n'
  | 'ý' | 'ÿ' => 'y'
  | _ => c

/-- Diacritic class of a (lowercase) character: the collation secondary key;
`0` for an unaccented character, distinct values for distinct diacritics. -/
def accentClass (c : Char) : Nat :=
  match c with
  | 'á' | 'é' | 'í' | 'ó' | 'ú' | 'ý' => 1
  | 'à' | 'è' | 'ì' | 'ò' | 'ù' => 2
  | 'â' | 'ê' | 'î' | 'ô' | 'û' => 3
  | 'ä' | 'ë' | 'ï' | 'ö' | 'ü' | 'ÿ' => 4
  | 'ã' | 'õ' | 'ñ' => 5
  | 'ç' => 6
  | 'å' => 7
  | _ => 0

/-- Three-way comparison on `Nat`. -/
def cmpNat (a b : Nat) : Ordering :=
  if a < b then .lt else if b < a then .gt else .eq

/-- Lexicographic three-way comparison of key lists. -/
def cmpList : List Nat → List Nat → Ordering
  | [], [] => .eq
  | [], _ :: _ => .lt
  | _ :: _, [] => .gt
  | a :: as, b :: bs =>
    match cmpNat a b with
    | .eq => cmpList as bs
    | o => o

/-- Primary collation key of a string: the case-folded base letters. -/
def collPrimary (s : String) : List Nat :=
  s.data.map (fun c => (baseChar (foldCase c)).toNat)

/-- Secondary collation key of a string: the diacritic classes. -/
def collSecondary (s : String) : List Nat :=
  s.data.map (fun c => accentClass (foldCase c))

/-- Model of `a.localeCompare(b, undefined, { sensitivity: 'accent' })`:
per ECMA-402, accent sensitivity compares base letters first, then accents
and other diacritic marks, and ignores case entirely (`a = A`, `a ≠ á`,
`a ≠ b`).  Modelled as a two-pass comparison of collation keys; the result is
`-1`, `0` or `1` (`localeCompare` only promises negative / zero / positive). -/
def accentCompare (a b : String) : Int :=
  match cmpList (collPrimary a) (collPrimary b) with
  | .lt => -1
  | .gt => 1
  | .eq =>
    match cmpList (collSecondary a) (collSecondary b) with
    | .lt => -1
    | .gt => 1
    | .eq => 0

/-- Model of `String.prototype.trim`: drop leading and trailing whitespace. -/
def jsTrim (s : String) : String :=
  String.mk (((s.data.dropWhile Char.isWhitespace).reverse.dropWhile Char.isWhitespace).reverse)

/-- Model of `String.prototype.toLowerCase` on the characters this
development exercises. -/
def jsToLower (s : String) : String :=
  String.mk (s.data.map foldCase)

/-- Predicate `isPre n h` holds when `n` is a prefix of `h` (character-exact). -/
def isPre : List Char → List Char → Bool
  | [], _ => true
  | _ :: _, [] => false
  | a :: as, b :: bs => a == b && isPre as bs

/-- Predicate `occurs n h` holds when `n` occurs contiguously inside `h`. -/
def occurs (n : List Char) : List Char → Bool
  | [] => isPre n []
  | b :: bs => isPre n (b :: bs) || occurs n bs

/-- Model of `hay.includes(needle)`. -/
def jsIncludes (hay needle : String) : Bool :=
  occurs needle.data hay.data

/-- JavaScript string interpolation of a possibly-`undefined` value:
`undefined` renders as the text `undefined`. -/
def jsShow (v : Option String) : String :=
  match v with
  | some s => s
  | none => ("undefined")

/-- Numeric indexing (`obj[0]`, `obj[1]`) on the object literal returned by
`findDictionaryEntry`: the object has only the string keys `author` and
`definition`, so every numeric property access yields `undefined`. -/
def jsIndexFindResult (_ : FindResult) (_ : Nat) : Option String := none

/-! ## The store operations, from `dict.js` -/

/-- The comparator handed to `dictData.sort` in `sortDictData`:
`(a, b) => a.entry.localeCompare(b.entry, undefined, { sensitivity: 'accent' })`;
as a boolean "may come first" relation for the stable sort. -/
def entryLe (a b : Entry) : Bool :=
  decide (accentCompare a.entry b.entry ≤ 0)

/-- Source `Dict.sortDictData`: sorts the data in place with the accent-sensitive
comparator.  JavaScript `Array.prototype.sort` is a stable sort producing a
sorted permutation; modelled by the stable `List.mergeSort`. -/
def sortDictData (dictData : List Entry) : List Entry :=
  dictData.mergeSort entryLe

/-- Source `Dict.init`: just `sortDictData` on the loaded data. -/
def dictInit (dictData : List Entry) : List Entry :=
  sortDictData dictData

/-- Source `Dict.getDictDataEntryCount`: the length of the data array. -/
def getDictDataEntryCount (dictData : List Entry) : Nat :=
  dictData.length

/-- Loop of `Dict.getIndexOf`: `start`/`end` are JavaScript numbers, here
integers; `middle = Math.floor((start + end) / 2)` is integer floor division.
An access `array[middle]` outside the array would yield `undefined`, make the
compare callback throw, and the surrounding `try`/`catch` return `-1`; the
out-of-range branches model that path. -/
def getIndexOfAux (array : List Entry) (target : String) (start e : Int) : Int :=
  if h : start ≤ e then
    let middle : Int := (start + e) / 2
    if middle < 0 then -1
    else
      match array[middle.toNat]? with
      | none => -1
      | some a =>
        let result := accentCompare a.entry target
        if result = 0 then middle
        else if result < 0 then getIndexOfAux array target (middle + 1) e
        else getIndexOfAux array target start (middle - 1)
  else -1
termination_by (e + 1 - start).toNat
decreasing_by
  · omega
  · omega

/-! ## Laws of the comparator -/

lemma cmpNat_eq_iff {a b : Nat} : cmpNat a b = .eq ↔ a = b := by
  unfold cmpNat; split_ifs <;> simp_all <;> omega

lemma cmpNat_lt_iff {a b : Nat} : cmpNat a b = .lt ↔ a < b := by
  unfold cmpNat; split_ifs <;> simp_all

lemma cmpNat_gt_iff {a b : Nat} : cmpNat a b = .gt ↔ b < a := by
  unfold cmpNat; split_ifs <;> simp_all <;> omega

lemma cmpList_eq_iff : ∀ xs ys : List Nat, cmpList xs ys = .eq ↔ xs = ys
  | [], [] => by simp [cmpList]
  | [], _ :: _ => by simp [cmpList]
  | _ :: _, [] => by simp [cmpList]
  | x :: xs, y :: ys => by
    rcases h : cmpNat x y with _ | _ | _
    · have hxy := cmpNat_lt_iff.mp h
      simp only [cmpList, h]
      constructor
      · intro hc; exact absurd hc (by simp)
      · rintro ⟨rfl, -⟩; omega
    · have hxy := cmpNat_eq_iff.mp h
      subst hxy
      simp [cmpList, h, cmpList_eq_iff xs ys]
    · have hxy := cmpNat_gt_iff.mp h
      simp only [cmpList, h]
      constructor
      · intro hc; exact absurd hc (by simp)
      · rintro ⟨rfl, -⟩; omega

lemma cmpList_refl (xs : List Nat) : cmpList xs xs = .eq :=
  (cmpList_eq_iff xs xs).mpr rfl

lemma cmpNat_swap (a b : Nat) : cmpNat b a = (cmpNat a b).swap := by
  unfold cmpNat; split_ifs <;> first | omega | simp_all [Ordering.swap]

lemma cmpList_swap : ∀ xs ys : List Nat, cmpList ys xs = (cmpList xs ys).swap
  | [], [] => rfl
  | [], _ :: _ => rfl
  | _ :: _, [] => rfl
  | x :: xs, y :: ys => by
    rcases h : cmpNat x y with _ | _ | _ <;>
      simp [cmpList, h, cmpNat_swap x y, Ordering.swap, cmpList_swap xs ys]

lemma cmpList_lt_trans :
    ∀ xs ys zs : List Nat, cmpList xs ys = .lt → cmpList ys zs = .lt → cmpList xs zs = .lt
  | [], [], _ :: _, _, _ => by simp [cmpList]
  | [], _ :: _, _ :: _, _, _ => by simp [cmpList]
  | x :: xs, y :: ys, z :: zs, h1, h2 => by
    rcases hxy : cmpNat x y with _ | _ | _ <;> rcases hyz : cmpNat y z with _ | _ | _ <;>
        simp only [cmpList, hxy, hyz] at h1 h2 ⊢
    · have u1 := cmpNat_lt_iff.mp hxy
      have u2 := cmpNat_lt_iff.mp hyz
      have : cmpNat x z = .lt := cmpNat_lt_iff.mpr (by omega)
      simp [this]
    · have u1 := cmpNat_lt_iff.mp hxy
      have u2 := cmpNat_eq_iff.mp hyz
      have : cmpNat x z = .lt := cmpNat_lt_iff.mpr (by omega)
      simp [this]
    · exact absurd h2 (by simp)
    · have u1 := cmpNat_eq_iff.mp hxy
      have u2 := cmpNat_lt_iff.mp hyz
      have : cmpNat x z = .lt := cmpNat_lt_iff.mpr (by omega)
      simp [this]
    · have u1 := cmpNat_eq_iff.mp hxy
      have u2 := cmpNat_eq_iff.mp hyz
      have : cmpNat x z = .eq := cmpNat_eq_iff.mpr (by omega)
      simp only [this]
      exact cmpList_lt_trans xs ys zs h1 h2
    · exact absurd h2 (by simp)
    · exact absurd h1 (by simp)
    · exact absurd h1 (by simp)
    · exact absurd h1 (by simp)

/-- The three possible values of the modelled comparator. -/
lemma accentCompare_vals (a b : String) :
    accentCompare a b = -1 ∨ accentCompare a b = 0 ∨ accentCompare a b = 1 := by
  unfold accentCompare
  rcases cmpList (collPrimary a) (collPrimary b) with _ | _ | _ <;>
    [skip; rcases cmpList (collSecondary a) (collSecondary b) with _ | _ | _; skip] <;> simp

/-- The comparator reports equality exactly when the two collation keys
coincide. -/
lemma accentCompare_eq_zero_iff {a b : String} :
    accentCompare a b = 0 ↔ collPrimary a = collPrimary b ∧ collSecondary a = collSecondary b := by
  unfold accentCompare
  rcases h1 : cmpList (collPrimary a) (collPrimary b) with _ | _ | _
  · simp only [show ((-1 : Int) = 0) = False by simp]
    constructor
    · intro hc; exact hc.elim
    · rintro ⟨hp, -⟩
      rw [hp, cmpList_refl] at h1
      exact absurd h1 (by simp)
  · have hp := (cmpList_eq_iff _ _).mp h1
    rcases h2 : cmpList (collSecondary a) (collSecondary b) with _ | _ | _
    · simp only [show ((-1 : Int) = 0) = False by simp]
      constructor
      · intro hc; exact hc.elim
      · rintro ⟨-, hsnd⟩
        rw [hsnd, cmpList_refl] at h2
        exact absurd h2 (by simp)
    · simp [hp, (cmpList_eq_iff _ _).mp h2]
    · simp only [show ((1 : Int) = 0) = False by simp]
      constructor
      · intro hc; exact hc.elim
      · rintro ⟨-, hsnd⟩
        rw [hsnd, cmpList_refl] at h2
        exact absurd h2 (by simp)
  · simp only [show ((1 : Int) = 0) = False by simp]
    constructor
    · intro hc; exact hc.elim
    · rintro ⟨hp, -⟩
      rw [hp, cmpList_refl] at h1
      exact absurd h1 (by simp)

lemma accentCompare_refl (a : String) : accentCompare a a = 0 :=
  accentCompare_eq_zero_iff.mpr ⟨rfl, rfl⟩

/-- Swapping the arguments flips the sign. -/
lemma accentCompare_swap (a b : String) : accentCompare b a = - accentCompare a b := by
  unfold accentCompare
  rw [cmpList_swap (collPrimary a), cmpList_swap (collSecondary a)]
  rcases cmpList (collPrimary a) (collPrimary b) with _ | _ | _ <;>
    [skip; rcases cmpList (collSecondary a) (collSecondary b) with _ | _ | _; skip] <;>
    simp [Ordering.swap]

/-- The comparator is negative exactly on a lexicographic descent of the
collation keys. -/
lemma accentCompare_neg_iff {a b : String} :
    accentCompare a b < 0 ↔
      cmpList (collPrimary a) (collPrimary b) = .lt ∨
        (collPrimary a = collPrimary b ∧ cmpList (collSecondary a) (collSecondary b) = .lt) := by
  unfold accentCompare
  rcases h1 : cmpList (collPrimary a) (collPrimary b) with _ | _ | _
  · simp
  · have hp := (cmpList_eq_iff _ _).mp h1
    rcases h2 : cmpList (collSecondary a) (collSecondary b) with _ | _ | _ <;> simp [hp, h2]
  · constructor
    · intro hc; simp at hc
    · rintro (hc | ⟨hp, -⟩)
      · simp [h1] at hc
      · rw [hp, cmpList_refl] at h1
        exact absurd h1 (by simp)

/-- Strict transitivity of the modelled comparator. -/
lemma accentCompare_lt_trans {a b c : String} (h1 : accentCompare a b < 0)
    (h2 : accentCompare b c < 0) : accentCompare a c < 0 := by
  rw [accentCompare_neg_iff] at h1 h2 ⊢
  rcases h1 with h1 | ⟨hp1, hs1⟩ <;> rcases h2 with h2 | ⟨hp2, hs2⟩
  · exact Or.inl (cmpList_lt_trans _ _ _ h1 h2)
  · exact Or.inl (hp2 ▸ h1)
  · exact Or.inl (by rw [hp1]; exact h2)
  · exact Or.inr ⟨hp1.trans hp2, cmpList_lt_trans _ _ _ hs1 hs2⟩

/-- Comparator-equivalent strings compare identically against any third
string: the comparator only looks at the collation keys. -/
lemma accentCompare_congr {a b : String} (h : accentCompare a b = 0) (c : String) :
    accentCompare a c = accentCompare b c := by
  obtain ⟨hp, hs⟩ := accentCompare_eq_zero_iff.mp h
  unfold accentCompare
  rw [hp, hs]

/-- Comparator-equivalent strings also compare identically as the second
argument. -/
lemma accentCompare_congr_right {b c : String} (h : accentCompare b c = 0) (a : String) :
    accentCompare a b = accentCompare a c := by
  obtain ⟨hp, hs⟩ := accentCompare_eq_zero_iff.mp h
  unfold accentCompare
  rw [hp, hs]

/-! ## The comparator laws lifted to the sort relation -/

lemma entryLe_trans (a b c : Entry) (h1 : entryLe a b = true) (h2 : entryLe b c = true) :
    entryLe a c = true := by
  unfold entryLe at h1 h2 ⊢
  rw [decide_eq_true_iff] at h1 h2 ⊢
  rcases lt_or_eq_of_le h1 with h1' | h1'
  · rcases lt_or_eq_of_le h2 with h2' | h2'
    · exact le_of_lt (accentCompare_lt_trans h1' h2')
    · rw [← accentCompare_congr_right h2' a.entry]
      exact h1
  · rw [accentCompare_congr h1' c.entry]
    exact h2

lemma entryLe_total (a b : Entry) : (entryLe a b || entryLe b a) = true := by
  unfold entryLe
  rw [accentCompare_swap a.entry b.entry]
  rcases accentCompare_vals a.entry b.entry with h | h | h <;> simp [h]

/-- Source `Dict.getIndexOf array target compareFunc` at the compare function the
module always passes (accent-sensitive compare of `entry` names against the
target string): binary search from `start = 0`, `end = array.length - 1`,
returning the found index or `-1`. -/
def getIndexOf (array : List Entry) (target : String) : Int :=
  getIndexOfAux array target 0 ((array.length : Int) - 1)

/-- Source `Dict.findDictionaryEntry`: binary search for `entryName`; on a hit,
package the record's `author` and `definition`; `null` (here `none`)
otherwise. -/
def findDictionaryEntry (dictData : List Entry) (entryName : String) : Option FindResult :=
  let result := getIndexOf dictData entryName
  if result ≠ -1 then
    match dictData[result.toNat]? with
    | some en => some ⟨en.author, en.definition⟩
    | none => none
  else none

/-- Source `Dict.handleDictCommand`, store-relevant part: trim the requested phrase,
complain on an empty request, otherwise look it up and format the reply.
(The handler only reads the store, so it returns just the reply text.) -/
def handleDictCommand (dictData : List Entry) (phrase : String) : String :=
  let dictRequested := jsTrim phrase
  if dictRequested = ("") then ("DICT entry for what, /dict WHAT")
  else
    match findDictionaryEntry dictData dictRequested with
    | some r =>
        ("**DICT:** **") ++ dictRequested ++ ("** = ") ++ r.definition ++
          (" [added by: ") ++ r.author ++ ("]")
    | none => ("**DICT:** No definition for ") ++ dictRequested

/-- Outcome of `Dict.handleDefineCommand`: the store contents afterwards, the
reply text, and the snapshot handed to `flushDictData` (`none` when no flush
was triggered; the write itself is asynchronous I/O and not awaited). -/
structure DefineResult where
  dictData : List Entry
  reply : String
  flushed : Option (List Entry)
deriving DecidableEq

/-- Source `Dict.handleDefineCommand`, store-relevant part (both option values
present): trim phrase and definition, look the phrase up; on a miss push
`{author, entry, definition}`, re-sort, flush and confirm; on a hit leave the
store alone and report the existing entry — note the source indexes the
result object as an array (`existingEntry[1]`, `existingEntry[0]`), which
yields `undefined` for both. -/
def handleDefineCommand (dictData : List Entry) (phrase definitionArg username : String) :
    DefineResult :=
  let entryName := jsTrim phrase
  let definition := jsTrim definitionArg
  match findDictionaryEntry dictData entryName with
  | none =>
    let newEntry : Entry := ⟨entryName, definition, username⟩
    let newData := sortDictData (dictData ++ [newEntry])
    ⟨newData, ("**DICT:** Definition for ") ++ entryName ++ (" added successfully."),
      some newData⟩
  | some existingEntry =>
    ⟨dictData,
      ("**DICT:** Definition for ") ++ entryName ++ (" already exists as: ") ++
        jsShow (jsIndexFindResult existingEntry 1) ++ (" by ") ++
        jsShow (jsIndexFindResult existingEntry 0),
      none⟩

/-- The filter line of `Dict.handleIndexCommand`:
`dictData.filter(entry => entry.definition.toLowerCase().includes(search_string))`
with `search_string` the trimmed, lowercased argument. -/
def indexMatches (dictData : List Entry) (rawSearch : String) : List Entry :=
  let search_string := jsToLower (jsTrim rawSearch)
  dictData.filter (fun en => jsIncludes (jsToLower en.definition) search_string)

/-- The output loop of `Dict.handleIndexCommand`: quoted entry names joined
by `", "`. -/
def joinQuoted : List Entry → String
  | [] => ("")
  | [en] => ("\"") ++ en.entry ++ ("\"")
  | en :: rest => ("\"") ++ en.entry ++ ("\"") ++ (", ") ++ joinQuoted rest

/-- Source `Dict.handleIndexCommand`, store-relevant part: trim and lowercase the
search string, filter the definitions by containment, and format either the
match list or the not-found text. -/
def handleIndexCommand (dictData : List Entry) (rawSearch : String) : String :=
  let search_string := jsToLower (jsTrim rawSearch)
  let matchList := indexMatches dictData rawSearch
  if matchList.length > 0 then
    ("Search string ") ++ search_string ++ (" found in entries: ") ++ joinQuoted matchList
  else
    ("Search string ") ++ search_string ++ (" not found in entries.")

/-- One public operation of the module, as dispatched by the registered
commands (plus `init`, which runs once at module load). -/
inductive DictOp where
  | opInit : DictOp
  | opDefine (phrase definitionArg username : String) : DictOp
  | opDict (phrase : String) : DictOp
  | opIndex (searchArg : String) : DictOp

/-- Effect of one operation on the store contents: `init` re-sorts,
`/define` may insert, `/dict` and `/index` only read. -/
def runOp (dictData : List Entry) : DictOp → List Entry
  | .opInit => dictInit dictData
  | .opDefine p d u => (handleDefineCommand dictData p d u).dictData
  | .opDict _ => dictData
  | .opIndex _ => dictData

/-- Effect of a sequence of operations on the store contents. -/
def runOps (dictData : List Entry) : List DictOp → List Entry
  | [] => dictData
  | op :: ops => runOps (runOp dictData op) ops

/-- The sortedness invariant of the store: consecutive entries are ordered by
the accent-sensitive comparator. -/
def SortedDict (dictData : List Entry) : Prop :=
  dictData.Pairwise (fun a b => entryLe a b = true)

instance (dictData : List Entry) : Decidable (SortedDict dictData) := by
  unfold SortedDict
  infer_instance

/-- Bounds-checked twin of `getIndexOfAux`: identical control flow, but
returns `none` the moment an iteration would read `array[middle]` out of
bounds.  Agreement with `getIndexOfAux` (from the real entry point) states
that every array access of the search is in bounds. -/
def getIndexOfCheckedAux (array : List Entry) (target : String) (start e : Int) : Option Int :=
  if h : start ≤ e then
    let middle : Int := (start + e) / 2
    if 0 ≤ middle ∧ middle.toNat < array.length then
      match array[middle.toNat]? with
      | none => some (-1)
      | some a =>
        let result := accentCompare a.entry target
        if result = 0 then some middle
        else if result < 0 then getIndexOfCheckedAux array target (middle + 1) e
        else getIndexOfCheckedAux array target start (middle - 1)
    else none
  else some (-1)
termination_by (e + 1 - start).toNat
decreasing_by
  · omega
  · omega

/-! ## Sortedness of the store after `sortDictData` -/

lemma sortDictData_sorted (l : List Entry) : SortedDict (sortDictData l) :=
  List.sorted_mergeSort entryLe_trans entryLe_total l

lemma sortDictData_perm (l : List Entry) : (sortDictData l).Perm l :=
  List.mergeSort_perm l entryLe

/-! ## Correctness of the binary search -/

/-- Whatever the array (sorted or not), the search either reports `-1` or
an index holding an entry the comparator considers equal to the target. -/
lemma getIndexOfAux_sound (array : List Entry) (target : String) (start e : Int) :
    getIndexOfAux array target start e = -1 ∨
      ∃ (i : Nat) (en : Entry), getIndexOfAux array target start e = (i : Int) ∧
        array[i]? = some en ∧ accentCompare en.entry target = 0 := by
  induction start, e using getIndexOfAux.induct array target with
  | case1 start e hle middle hmid =>
    have hmid' : (start + e) / 2 < 0 := hmid
    left
    rw [getIndexOfAux]
    simp only [dif_pos hle]
    rw [if_pos hmid']
  | case2 start e hle middle hmid hnone =>
    have hmid' : ¬ (start + e) / 2 < 0 := hmid
    have hnone' : array[((start + e) / 2).toNat]? = none := hnone
    left
    rw [getIndexOfAux]
    simp only [dif_pos hle]
    rw [if_neg hmid', hnone']
  | case3 start e hle middle hmid a ha result hres =>
    have hmid' : ¬ (start + e) / 2 < 0 := hmid
    have ha' : array[((start + e) / 2).toNat]? = some a := ha
    have hres' : accentCompare a.entry target = 0 := hres
    right
    refine ⟨((start + e) / 2).toNat, a, ?_, ha', hres'⟩
    rw [getIndexOfAux]
    simp only [dif_pos hle]
    rw [if_neg hmid', ha']
    simp only [if_pos hres']
    omega
  | case4 start e hle middle hmid a ha result hres hlt ih =>
    have hmid' : ¬ (start + e) / 2 < 0 := hmid
    have ha' : array[((start + e) / 2).toNat]? = some a := ha
    have hres' : ¬ accentCompare a.entry target = 0 := hres
    have hlt' : accentCompare a.entry target < 0 := hlt
    rw [getIndexOfAux]
    simp only [dif_pos hle]
    rw [if_neg hmid', ha']
    simp only [if_neg hres', if_pos hlt']
    exact ih
  | case5 start e hle middle hmid a ha result hres hge ih =>
    have hmid' : ¬ (start + e) / 2 < 0 := hmid
    have ha' : array[((start + e) / 2).toNat]? = some a := ha
    have hres' : ¬ accentCompare a.entry target = 0 := hres
    have hge' : ¬ accentCompare a.entry target < 0 := hge
    rw [getIndexOfAux]
    simp only [dif_pos hle]
    rw [if_neg hmid', ha']
    simp only [if_neg hres', if_neg hge']
    exact ih
  | case6 start e hle =>
    left
    rw [getIndexOfAux]
    simp only [dif_neg hle]

/-- On a sorted array, the search cannot miss: if some index inside the
current window holds a comparator-equal entry, the search does not answer
`-1`. -/
lemma getIndexOfAux_complete (array : List Entry) (target : String) (hs : SortedDict array)
    (start e : Int) :
    0 ≤ start → e ≤ (array.length : Int) - 1 →
      ∀ j : Nat, start ≤ (j : Int) → (j : Int) ≤ e →
        ∀ en, array[j]? = some en → accentCompare en.entry target = 0 →
          getIndexOfAux array target start e ≠ -1 := by
  have hpair := List.pairwise_iff_getElem.mp hs
  induction start, e using getIndexOfAux.induct array target with
  | case1 start e hle middle hmid =>
    have hmid' : (start + e) / 2 < 0 := hmid
    intro h0 _ j hj1 hj2 en _ _
    exact absurd hmid' (by omega)
  | case2 start e hle middle hmid hnone =>
    have hnone' : array[((start + e) / 2).toNat]? = none := hnone
    intro h0 he j hj1 hj2 en hen _
    rw [List.getElem?_eq_none_iff] at hnone'
    exact absurd hnone' (by omega)
  | case3 start e hle middle hmid a ha result hres =>
    have hmid' : ¬ (start + e) / 2 < 0 := hmid
    have ha' : array[((start + e) / 2).toNat]? = some a := ha
    have hres' : accentCompare a.entry target = 0 := hres
    intro _ _ j _ _ en _ _
    rw [getIndexOfAux]
    simp only [dif_pos hle]
    rw [if_neg hmid', ha']
    simp only [if_pos hres']
    omega
  | case4 start e hle middle hmid a ha result hres hlt ih =>
    have hmid' : ¬ (start + e) / 2 < 0 := hmid
    have ha' : array[((start + e) / 2).toNat]? = some a := ha
    have hres' : ¬ accentCompare a.entry target = 0 := hres
    have hlt' : accentCompare a.entry target < 0 := hlt
    intro h0 he j hj1 hj2 en hen heq
    obtain ⟨hmlen, hma⟩ := List.getElem?_eq_some.mp ha'
    obtain ⟨hjlen, hje⟩ := List.getElem?_eq_some.mp hen
    rw [getIndexOfAux]
    simp only [dif_pos hle]
    rw [if_neg hmid', ha']
    simp only [if_neg hres', if_pos hlt']
    rcases Nat.lt_trichotomy j (((start + e) / 2).toNat) with hcmp | hcmp | hcmp
    · -- a comparator-equal entry strictly left of the probe contradicts
      -- `entry[middle] < target` on a sorted array
      exfalso
      have hle' := hpair j (((start + e) / 2).toNat) hjlen hmlen hcmp
      rw [hje, hma] at hle'
      unfold entryLe at hle'
      rw [decide_eq_true_iff] at hle'
      have hcongr := accentCompare_congr heq a.entry
      have hswap := accentCompare_swap a.entry target
      have hswap2 := accentCompare_swap en.entry a.entry
      have hcongr2 := accentCompare_congr heq target
      omega
    · exfalso
      subst hcmp
      rw [hma] at hje
      rw [hje] at hres'
      exact hres' heq
    · have hmeq : middle = (start + e) / 2 := rfl
      exact ih (by omega) he j (by omega) hj2 en hen heq
  | case5 start e hle middle hmid a ha result hres hge ih =>
    have hmid' : ¬ (start + e) / 2 < 0 := hmid
    have ha' : array[((start + e) / 2).toNat]? = some a := ha
    have hres' : ¬ accentCompare a.entry target = 0 := hres
    have hge' : ¬ accentCompare a.entry target < 0 := hge
    intro h0 he j hj1 hj2 en hen heq
    obtain ⟨hmlen, hma⟩ := List.getElem?_eq_some.mp ha'
    obtain ⟨hjlen, hje⟩ := List.getElem?_eq_some.mp hen
    rw [getIndexOfAux]
    simp only [dif_pos hle]
    rw [if_neg hmid', ha']
    simp only [if_neg hres', if_neg hge']
    rcases Nat.lt_trichotomy j (((start + e) / 2).toNat) with hcmp | hcmp | hcmp
    · have hmeq : middle = (start + e) / 2 := rfl
      exact ih h0 (by omega) j hj1 (by omega) en hen heq
    · exfalso
      subst hcmp
      rw [hma] at hje
      rw [hje] at hres'
      exact hres' heq
    · -- a comparator-equal entry strictly right of the probe contradicts
      -- `entry[middle] > target` on a sorted array
      exfalso
      have hle' := hpair (((start + e) / 2).toNat) j hmlen hjlen hcmp
      rw [hje, hma] at hle'
      unfold entryLe at hle'
      rw [decide_eq_true_iff] at hle'
      have hcongr := accentCompare_congr_right heq a.entry
      omega
  | case6 start e hle =>
    intro _ _ j hj1 hj2 en _ _
    exact absurd (le_trans hj1 hj2) hle

/-- On a sorted store, a comparator-equal entry somewhere in the data keeps
the search away from the `-1` sentinel. -/
lemma getIndexOf_ne_neg_one (array : List Entry) (target : String) (hs : SortedDict array)
    (hmem : ∃ en ∈ array, accentCompare en.entry target = 0) :
    getIndexOf array target ≠ -1 := by
  obtain ⟨en, hmem', heq⟩ := hmem
  obtain ⟨j, hj, hje⟩ := List.mem_iff_getElem.mp hmem'
  have hlen : 0 < array.length := by omega
  exact getIndexOfAux_complete array target hs 0 ((array.length : Int) - 1)
    (by omega) (by omega) j (by omega) (by omega) en
    (by rw [List.getElem?_eq_getElem hj, hje]) heq

/-- The lookup `findDictionaryEntry` on a sorted store misses exactly when no entry is
comparator-equal to the requested name. -/
lemma findDictionaryEntry_none_iff (dictData : List Entry) (t : String)
    (hs : SortedDict dictData) :
    findDictionaryEntry dictData t = none ↔
      ∀ en ∈ dictData, accentCompare en.entry t ≠ 0 := by
  constructor
  · intro hnone en hmem heq
    have hne := getIndexOf_ne_neg_one dictData t hs ⟨en, hmem, heq⟩
    rcases getIndexOfAux_sound dictData t 0 ((dictData.length : Int) - 1) with h | h
    · exact hne h
    · obtain ⟨i, en', hi, hget, heq'⟩ := h
      simp only [findDictionaryEntry, getIndexOf] at hnone
      rw [hi] at hnone
      simp only [Int.toNat_natCast] at hnone
      rw [if_pos (by omega)] at hnone
      rw [hget] at hnone
      exact absurd hnone (by simp)
  · intro hall
    simp only [findDictionaryEntry, getIndexOf]
    rcases getIndexOfAux_sound dictData t 0 ((dictData.length : Int) - 1) with h | h
    · rw [h]
      simp
    · obtain ⟨i, en', hi, hget, heq'⟩ := h
      obtain ⟨hilen, hie⟩ := List.getElem?_eq_some.mp hget
      exact absurd heq' (hall en' (hie ▸ List.getElem_mem hilen))

/-- Whenever `findDictionaryEntry` answers, the answer is the `author` and
`definition` of some comparator-equal entry of the store (no sortedness
needed). -/
lemma findDictionaryEntry_some (dictData : List Entry) (t : String) (r : FindResult)
    (hfind : findDictionaryEntry dictData t = some r) :
    ∃ en ∈ dictData, accentCompare en.entry t = 0 ∧ r = ⟨en.author, en.definition⟩ := by
  simp only [findDictionaryEntry, getIndexOf] at hfind
  rcases getIndexOfAux_sound dictData t 0 ((dictData.length : Int) - 1) with h | h
  · rw [h] at hfind
    simp at hfind
  · obtain ⟨i, en', hi, hget, heq'⟩ := h
    obtain ⟨hilen, hie⟩ := List.getElem?_eq_some.mp hget
    rw [hi] at hfind
    rw [if_pos (by omega)] at hfind
    simp only [Int.toNat_natCast] at hfind
    rw [hget] at hfind
    refine ⟨en', hie ▸ List.getElem_mem hilen, heq', ?_⟩
    simp only [Option.some_inj] at hfind
    exact hfind.symm

/-- On a sorted store holding a comparator-equal entry, `findDictionaryEntry`
answers with the fields of one such entry. -/
lemma findDictionaryEntry_found (dictData : List Entry) (t : String) (hs : SortedDict dictData)
    (hmem : ∃ en ∈ dictData, accentCompare en.entry t = 0) :
    ∃ en ∈ dictData, accentCompare en.entry t = 0 ∧
      findDictionaryEntry dictData t = some ⟨en.author, en.definition⟩ := by
  have hne := getIndexOf_ne_neg_one dictData t hs hmem
  rcases getIndexOfAux_sound dictData t 0 ((dictData.length : Int) - 1) with h | h
  · exact absurd h hne
  · obtain ⟨i, en', hi, hget, heq'⟩ := h
    obtain ⟨hilen, hie⟩ := List.getElem?_eq_some.mp hget
    refine ⟨en', hie ▸ List.getElem_mem hilen, heq', ?_⟩
    simp only [findDictionaryEntry, getIndexOf]
    rw [hi]
    rw [if_pos (by omega)]
    simp only [Int.toNat_natCast]
    rw [hget]

/-! ## Properties of the trim and substring models -/

lemma dropWhile_dropWhile (p : Char → Bool) (l : List Char) :
    (l.dropWhile p).dropWhile p = l.dropWhile p := by
  induction l with
  | nil => rfl
  | cons x xs ih =>
    by_cases h : p x
    · simp [List.dropWhile_cons, h, ih]
    · simp [List.dropWhile_cons, h]

lemma head_dropWhile_false (p : Char → Bool) (l : List Char) :
    ∀ a, (l.dropWhile p).head? = some a → p a = false := by
  induction l with
  | nil => intro a h; simp at h
  | cons x xs ih =>
    intro a h
    by_cases hx : p x
    · rw [List.dropWhile_cons, if_pos hx] at h
      exact ih a h
    · rw [List.dropWhile_cons, if_neg hx] at h
      simp only [List.head?_cons, Option.some_inj] at h
      simp only [Bool.not_eq_true] at hx
      rw [← h]
      exact hx

lemma getLast?_dropWhile (p : Char → Bool) (l : List Char) :
    l.dropWhile p = [] ∨ (l.dropWhile p).getLast? = l.getLast? := by
  induction l with
  | nil => left; rfl
  | cons x xs ih =>
    by_cases hx : p x
    · rw [List.dropWhile_cons, if_pos hx]
      rcases ih with h | h
      · left; exact h
      · by_cases hxs : xs = []
        · subst hxs; left; simp only [List.dropWhile_nil]
        · right
          rw [h]
          obtain ⟨y, ys, rfl⟩ := List.exists_cons_of_ne_nil hxs
          rw [List.getLast?_cons_cons]
    · rw [List.dropWhile_cons, if_neg hx]
      right; rfl

lemma dropWhile_eq_self_of_head (p : Char → Bool) (l : List Char)
    (h : ∀ a, l.head? = some a → p a = false) : l.dropWhile p = l := by
  cases l with
  | nil => rfl
  | cons x xs =>
    rw [List.dropWhile_cons, if_neg (by simp [h x rfl])]

lemma trimChars_idem (w : Char → Bool) (l : List Char) :
    (((((l.dropWhile w).reverse.dropWhile w).reverse.dropWhile w).reverse.dropWhile w).reverse)
      = ((l.dropWhile w).reverse.dropWhile w).reverse := by
  have h1 : ((l.dropWhile w).reverse.dropWhile w).reverse.dropWhile w
      = ((l.dropWhile w).reverse.dropWhile w).reverse := by
    apply dropWhile_eq_self_of_head
    intro a ha
    rw [List.head?_reverse] at ha
    rcases getLast?_dropWhile w (l.dropWhile w).reverse with h | h
    · rw [h] at ha; simp at ha
    · rw [h, List.getLast?_reverse] at ha
      exact head_dropWhile_false w l a ha
  rw [h1, List.reverse_reverse, dropWhile_dropWhile]

/-- The modelled `trim` is idempotent: a trimmed request has no surrounding
whitespace left. -/
lemma jsTrim_idem (s : String) : jsTrim (jsTrim s) = jsTrim s := by
  unfold jsTrim
  exact congrArg String.mk (trimChars_idem Char.isWhitespace s.data)

lemma isPre_iff : ∀ n h : List Char, isPre n h = true ↔ ∃ t, h = n ++ t
  | [], h => by simp [isPre]
  | a :: as, [] => by simp [isPre]
  | a :: as, b :: bs => by
    rw [isPre, Bool.and_eq_true, beq_iff_eq, isPre_iff as bs]
    constructor
    · rintro ⟨rfl, t, rfl⟩; exact ⟨t, rfl⟩
    · rintro ⟨t, ht⟩
      injection ht with h1 h2
      exact ⟨h1.symm, t, h2⟩

/-- The `includes` model detects exactly contiguous containment. -/
lemma occurs_iff (n : List Char) : ∀ h : List Char, occurs n h = true ↔ ∃ s t, h = s ++ n ++ t
  | [] => by
    rw [occurs, isPre_iff]
    simp [List.nil_eq_append_iff]
  | b :: bs => by
    rw [occurs, Bool.or_eq_true, isPre_iff, occurs_iff n bs]
    constructor
    · rintro (⟨t, ht⟩ | ⟨s, t, hst⟩)
      · exact ⟨[], t, by simpa using ht⟩
      · exact ⟨b :: s, t, by simp [hst]⟩
    · rintro ⟨s, t, hst⟩
      cases s with
      | nil => left; exact ⟨t, by simpa using hst⟩
      | cons s0 s' =>
        right
        injection hst with h1 h2
        exact ⟨s', t, h2⟩

lemma jsIncludes_iff (hay needle : String) :
    jsIncludes hay needle = true ↔ ∃ s t, hay.data = s ++ needle.data ++ t :=
  occurs_iff needle.data hay.data

/-! ## Safety of the binary search accesses -/

/-- Starting from the real entry bounds, the bounds-checked search never
detects an out-of-range access and agrees with the unchecked search. -/
lemma getIndexOfCheckedAux_eq (array : List Entry) (target : String) (start e : Int) :
    0 ≤ start → e ≤ (array.length : Int) - 1 →
      getIndexOfCheckedAux array target start e = some (getIndexOfAux array target start e) := by
  induction start, e using getIndexOfCheckedAux.induct array target with
  | case1 start e hle middle hbound hnone =>
    have hbound' : 0 ≤ (start + e) / 2 ∧ ((start + e) / 2).toNat < array.length := hbound
    have hnone' : array[((start + e) / 2).toNat]? = none := hnone
    intro h0 he
    rw [getIndexOfCheckedAux, getIndexOfAux]
    simp only [dif_pos hle]
    rw [if_pos hbound', if_neg (show ¬ (start + e) / 2 < 0 by omega), hnone']
  | case2 start e hle middle hbound a ha result hres =>
    have hbound' : 0 ≤ (start + e) / 2 ∧ ((start + e) / 2).toNat < array.length := hbound
    have ha' : array[((start + e) / 2).toNat]? = some a := ha
    have hres' : accentCompare a.entry target = 0 := hres
    intro h0 he
    rw [getIndexOfCheckedAux, getIndexOfAux]
    simp only [dif_pos hle]
    rw [if_pos hbound', if_neg (show ¬ (start + e) / 2 < 0 by omega), ha']
    simp only [if_pos hres']
  | case3 start e hle middle hbound a ha result hres hlt ih =>
    have hbound' : 0 ≤ (start + e) / 2 ∧ ((start + e) / 2).toNat < array.length := hbound
    have ha' : array[((start + e) / 2).toNat]? = some a := ha
    have hres' : ¬ accentCompare a.entry target = 0 := hres
    have hlt' : accentCompare a.entry target < 0 := hlt
    intro h0 he
    rw [getIndexOfCheckedAux, getIndexOfAux]
    simp only [dif_pos hle]
    rw [if_pos hbound', if_neg (show ¬ (start + e) / 2 < 0 by omega), ha']
    simp only [if_neg hres', if_pos hlt']
    exact ih (by omega) he
  | case4 start e hle middle hbound a ha result hres hge ih =>
    have hbound' : 0 ≤ (start + e) / 2 ∧ ((start + e) / 2).toNat < array.length := hbound
    have ha' : array[((start + e) / 2).toNat]? = some a := ha
    have hres' : ¬ accentCompare a.entry target = 0 := hres
    have hge' : ¬ accentCompare a.entry target < 0 := hge
    intro h0 he
    rw [getIndexOfCheckedAux, getIndexOfAux]
    simp only [dif_pos hle]
    rw [if_pos hbound', if_neg (show ¬ (start + e) / 2 < 0 by omega), ha']
    simp only [if_neg hres', if_neg hge']
    exact ih h0 (by omega)
  | case5 start e hle middle hbound =>
    have hbound' : ¬ (0 ≤ (start + e) / 2 ∧ ((start + e) / 2).toNat < array.length) := hbound
    intro h0 he
    exact absurd (show 0 ≤ (start + e) / 2 ∧ ((start + e) / 2).toNat < array.length by omega)
      hbound'
  | case6 start e hle =>
    intro h0 he
    rw [getIndexOfCheckedAux, getIndexOfAux]
    simp only [dif_neg hle]

/-! ## Preservation of the invariant by the public operations -/

lemma runOp_sorted (l : List Entry) (op : DictOp) (h : SortedDict l) :
    SortedDict (runOp l op) := by
  cases op with
  | opInit => exact sortDictData_sorted l
  | opDefine p d u =>
    simp only [runOp, handleDefineCommand]
    cases hfind : findDictionaryEntry l (jsTrim p) with
    | none => simp only [hfind]; exact sortDictData_sorted _
    | some r => simp only [hfind]; exact h
  | opDict _ => exact h
  | opIndex _ => exact h

lemma runOps_sorted (l : List Entry) (ops : List DictOp) (h : SortedDict l) :
    SortedDict (runOps l ops) := by
  induction ops generalizing l with
  | nil => exact h
  | cons op ops ih => exact ih _ (runOp_sorted l op h)

/-! ## The claims -/

/-- C1.  Sortedness invariant: the module runs `Dict.init()` (a sort) at load
time, and after it every sequence of public operations — re-init, `/define`
(which either rejects a duplicate leaving the store untouched, or appends and
re-sorts), `/dict` and `/index` (reads) — leaves the entry sequence sorted
ascending by the accent-sensitive comparator on `entry` names. -/
theorem store_sorted_after_ops (l : List Entry) (ops : List DictOp) :
    SortedDict (runOps (dictInit l) ops) :=
  runOps_sorted (dictInit l) ops (sortDictData_sorted l)

/-- C2.  Binary search correctness on a sorted store: `getIndexOf` returns an
index holding a comparator-equal entry whenever one exists and the sentinel
`-1` otherwise; in particular `findDictionaryEntry` misses on the empty store
and, on a one-entry store, hits exactly when the queried name is
comparator-equivalent to the entry. -/
theorem binary_search_correct (array : List Entry) (target : String)
    (hs : SortedDict array) :
    ((∃ en ∈ array, accentCompare en.entry target = 0) →
        ∃ (i : Nat) (en : Entry), getIndexOf array target = (i : Int) ∧
          array[i]? = some en ∧ accentCompare en.entry target = 0)
    ∧ ((∀ en ∈ array, accentCompare en.entry target ≠ 0) → getIndexOf array target = -1)
    ∧ (array = [] → findDictionaryEntry array target = none)
    ∧ (∀ en, array = [en] →
        findDictionaryEntry array target =
          if accentCompare en.entry target = 0 then some ⟨en.author, en.definition⟩ else none) := by
  refine ⟨?_, ?_, ?_, ?_⟩
  · intro hmem
    have hne := getIndexOf_ne_neg_one array target hs hmem
    rcases getIndexOfAux_sound array target 0 ((array.length : Int) - 1) with h | h
    · exact absurd h hne
    · exact h
  · intro hall
    rcases getIndexOfAux_sound array target 0 ((array.length : Int) - 1) with h | h
    · exact h
    · obtain ⟨i, en', hi, hget, heq'⟩ := h
      obtain ⟨hilen, hie⟩ := List.getElem?_eq_some.mp hget
      exact absurd heq' (hall en' (hie ▸ List.getElem_mem hilen))
  · intro h
    subst h
    exact (findDictionaryEntry_none_iff [] target (List.Pairwise.nil)).mpr (by simp)
  · intro en h
    subst h
    by_cases hacc : accentCompare en.entry target = 0
    · rw [if_pos hacc]
      obtain ⟨en', hen', hacc', hfind⟩ := findDictionaryEntry_found [en] target
        (List.pairwise_singleton _ _) ⟨en, List.mem_singleton_self en, hacc⟩
      rw [List.mem_singleton] at hen'
      subst hen'
      exact hfind
    · rw [if_neg hacc]
      refine (findDictionaryEntry_none_iff [en] target (List.pairwise_singleton _ _)).mpr ?_
      intro en' hen'
      rw [List.mem_singleton] at hen'
      subst hen'
      exact hacc

/-- Witness for C2 at a concrete sorted one-entry store. -/
theorem binary_search_correct_witness :
    SortedDict [Entry.mk ("apple") ("a red fruit") ("u1")]
    ∧ (((∃ en ∈ [Entry.mk ("apple") ("a red fruit") ("u1")],
            accentCompare en.entry ("apple") = 0) →
          ∃ (i : Nat) (en : Entry),
            getIndexOf [Entry.mk ("apple") ("a red fruit") ("u1")] ("apple") = (i : Int) ∧
              [Entry.mk ("apple") ("a red fruit") ("u1")][i]? = some en ∧
              accentCompare en.entry ("apple") = 0)
        ∧ ((∀ en ∈ [Entry.mk ("apple") ("a red fruit") ("u1")],
              accentCompare en.entry ("apple") ≠ 0) →
            getIndexOf [Entry.mk ("apple") ("a red fruit") ("u1")] ("apple") = -1)
        ∧ ([Entry.mk ("apple") ("a red fruit") ("u1")] = ([] : List Entry) →
            findDictionaryEntry [Entry.mk ("apple") ("a red fruit") ("u1")] ("apple") = none)
        ∧ (∀ en, [Entry.mk ("apple") ("a red fruit") ("u1")] = [en] →
            findDictionaryEntry [Entry.mk ("apple") ("a red fruit") ("u1")] ("apple") =
              if accentCompare en.entry ("apple") = 0 then some ⟨en.author, en.definition⟩
              else none)) :=
  ⟨by decide, binary_search_correct [Entry.mk ("apple") ("a red fruit") ("u1")] ("apple")
    (by decide)⟩

/-- C8.  Sorting is idempotent: on a store already sorted by the comparator,
`Dict.init`'s sort returns the sequence unchanged, element for element. -/
theorem init_sort_idempotent (l : List Entry) (hs : SortedDict l) : dictInit l = l :=
  List.mergeSort_of_sorted hs

/-- Witness for C8 at a concrete sorted two-entry store. -/
theorem init_sort_idempotent_witness :
    SortedDict [Entry.mk ("apple") ("a red fruit") ("u1"),
        Entry.mk ("banana") ("a yellow fruit") ("u2")]
    ∧ dictInit [Entry.mk ("apple") ("a red fruit") ("u1"),
        Entry.mk ("banana") ("a yellow fruit") ("u2")]
      = [Entry.mk ("apple") ("a red fruit") ("u1"),
        Entry.mk ("banana") ("a yellow fruit") ("u2")] :=
  ⟨by decide, init_sort_idempotent _ (by decide)⟩

/-- C3.  Successful insert: when no stored entry is comparator-equivalent to
the (trimmed) phrase, `/define` appends `{author, entry, definition}`,
re-sorts the whole sequence, and hands exactly the new sequence to the flush;
the count grows by one and an immediate `findDictionaryEntry` on the
in-memory sequence returns the new definition and author. -/
theorem insert_success (data : List Entry) (p d u : String) (hs : SortedDict data)
    (hno : ∀ en ∈ data, accentCompare en.entry (jsTrim p) ≠ 0) :
    getDictDataEntryCount (handleDefineCommand data p d u).dictData
        = getDictDataEntryCount data + 1
    ∧ (handleDefineCommand data p d u).dictData.Perm
        (data ++ [Entry.mk (jsTrim p) (jsTrim d) u])
    ∧ SortedDict (handleDefineCommand data p d u).dictData
    ∧ findDictionaryEntry (handleDefineCommand data p d u).dictData (jsTrim p)
        = some ⟨u, jsTrim d⟩
    ∧ (handleDefineCommand data p d u).flushed
        = some (handleDefineCommand data p d u).dictData := by
  have hfind : findDictionaryEntry data (jsTrim p) = none :=
    (findDictionaryEntry_none_iff data (jsTrim p) hs).mpr hno
  have hred : handleDefineCommand data p d u =
      ⟨sortDictData (data ++ [Entry.mk (jsTrim p) (jsTrim d) u]),
        ("**DICT:** Definition for ") ++ jsTrim p ++ (" added successfully."),
        some (sortDictData (data ++ [Entry.mk (jsTrim p) (jsTrim d) u]))⟩ := by
    simp only [handleDefineCommand, hfind]
  rw [hred]
  refine ⟨?_, sortDictData_perm _, sortDictData_sorted _, ?_, rfl⟩
  · show (sortDictData (data ++ [Entry.mk (jsTrim p) (jsTrim d) u])).length = data.length + 1
    unfold sortDictData
    rw [List.length_mergeSort, List.length_append]
    rfl
  · have hs' : SortedDict (sortDictData (data ++ [Entry.mk (jsTrim p) (jsTrim d) u])) :=
      sortDictData_sorted _
    have hmemnew : Entry.mk (jsTrim p) (jsTrim d) u
        ∈ sortDictData (data ++ [Entry.mk (jsTrim p) (jsTrim d) u]) :=
      (sortDictData_perm _).mem_iff.mpr (by simp)
    obtain ⟨en', hen', hacc', hfind'⟩ :=
      findDictionaryEntry_found _ (jsTrim p) hs'
        ⟨_, hmemnew, accentCompare_refl (jsTrim p)⟩
    have hen'' : en' ∈ data ++ [Entry.mk (jsTrim p) (jsTrim d) u] :=
      (sortDictData_perm _).mem_iff.mp hen'
    rcases List.mem_append.mp hen'' with hmem | hmem
    · exact absurd hacc' (hno en' hmem)
    · rw [List.mem_singleton] at hmem
      subst hmem
      exact hfind'

/-- Witness for C3: defining `x` in the empty store. -/
theorem insert_success_witness :
    SortedDict ([] : List Entry)
    ∧ (∀ en ∈ ([] : List Entry), accentCompare en.entry (jsTrim ("x")) ≠ 0)
    ∧ (getDictDataEntryCount (handleDefineCommand [] ("x") ("y") ("z")).dictData
          = getDictDataEntryCount ([] : List Entry) + 1
      ∧ (handleDefineCommand [] ("x") ("y") ("z")).dictData.Perm
          ([] ++ [Entry.mk (jsTrim ("x")) (jsTrim ("y")) ("z")])
      ∧ SortedDict (handleDefineCommand [] ("x") ("y") ("z")).dictData
      ∧ findDictionaryEntry (handleDefineCommand [] ("x") ("y") ("z")).dictData (jsTrim ("x"))
          = some ⟨("z"), jsTrim ("y")⟩
      ∧ (handleDefineCommand [] ("x") ("y") ("z")).flushed
          = some (handleDefineCommand [] ("x") ("y") ("z")).dictData) :=
  ⟨by decide, by decide, insert_success [] ("x") ("y") ("z") (by decide) (by decide)⟩

/-- C5.  Duplicate-insert atomicity: when the store already holds a
comparator-equivalent entry, `/define` leaves the sequence untouched,
triggers no flush, and the count is unchanged. -/
theorem duplicate_insert_atomic (data : List Entry) (p d u : String)
    (hdup : findDictionaryEntry data (jsTrim p) ≠ none) :
    (handleDefineCommand data p d u).dictData = data
    ∧ (handleDefineCommand data p d u).flushed = none
    ∧ getDictDataEntryCount (handleDefineCommand data p d u).dictData
        = getDictDataEntryCount data := by
  cases hfind : findDictionaryEntry data (jsTrim p) with
  | none => exact absurd hfind hdup
  | some r =>
    refine ⟨?_, ?_, ?_⟩ <;> simp [handleDefineCommand, hfind]

/-- Witness for C5: re-defining `Foo` (as `foo`). -/
theorem duplicate_insert_atomic_witness :
    findDictionaryEntry [Entry.mk ("Foo") ("A") ("alice")] (jsTrim ("foo")) ≠ none
    ∧ ((handleDefineCommand [Entry.mk ("Foo") ("A") ("alice")] ("foo") ("B") ("bob")).dictData
          = [Entry.mk ("Foo") ("A") ("alice")]
      ∧ (handleDefineCommand [Entry.mk ("Foo") ("A") ("alice")] ("foo") ("B") ("bob")).flushed
          = none
      ∧ getDictDataEntryCount
            (handleDefineCommand [Entry.mk ("Foo") ("A") ("alice")] ("foo") ("B") ("bob")).dictData
          = getDictDataEntryCount [Entry.mk ("Foo") ("A") ("alice")]) :=
  ⟨by (simp [findDictionaryEntry, getIndexOf, getIndexOfAux]; decide),
    duplicate_insert_atomic [Entry.mk ("Foo") ("A") ("alice")] ("foo") ("B") ("bob")
      (by (simp [findDictionaryEntry, getIndexOf, getIndexOfAux]; decide))⟩

/-- C4.  What the duplicate reply actually reports: `findDictionaryEntry`
returns the object `{author, definition}`, but `handleDefineCommand`
interpolates `existingEntry[1]` and `existingEntry[0]` — array indexing on an
object without numeric keys — so the reply shows `undefined by undefined`
instead of the existing definition and author (the function's own doc comment
promises an `[author, definition]` array). -/
theorem duplicate_reply_undefined :
    (handleDefineCommand [Entry.mk ("Foo") ("A") ("alice")] ("foo") ("B") ("bob")).reply
      = ("**DICT:** Definition for foo already exists as: undefined by undefined")
    ∧ (handleDefineCommand [Entry.mk ("Foo") ("A") ("alice")] ("foo") ("B") ("bob")).dictData
      = [Entry.mk ("Foo") ("A") ("alice")] := by
  constructor <;>
    (simp [handleDefineCommand, findDictionaryEntry, getIndexOf, getIndexOfAux]; try decide)

/-- C6 counterexample: after defining `café`, looking the name up as `CAFE`
does NOT return the entry — at accent sensitivity the comparator separates
`é` from `e`, so the claimed accent folding fails. -/
theorem comparator_accent_counterexample :
    findDictionaryEntry (handleDefineCommand [] ("café") ("a drink") ("alice")).dictData ("CAFE")
      = none := by
  simp [handleDefineCommand, findDictionaryEntry, getIndexOf, getIndexOfAux, sortDictData,
    List.mergeSort]
  try decide

/-- C6 as amended.  The comparator folds case only: it distinguishes base
letters and accented variants but ignores case, so after defining `café` a
lookup of `Café` returns the stored entry while a lookup of `CAFE` misses. -/
theorem comparator_folds_case_not_accents :
    accentCompare ("café") ("Café") = 0
    ∧ accentCompare ("café") ("CAFE") ≠ 0
    ∧ accentCompare ("a") ("A") = 0
    ∧ accentCompare ("a") ("b") ≠ 0
    ∧ findDictionaryEntry (handleDefineCommand [] ("café") ("a drink") ("alice")).dictData
        ("Café") = some ⟨("alice"), ("a drink")⟩
    ∧ findDictionaryEntry (handleDefineCommand [] ("café") ("a drink") ("alice")).dictData
        ("CAFE") = none := by
  refine ⟨by decide, by decide, by decide, by decide, ?_, ?_⟩ <;>
    (simp [handleDefineCommand, findDictionaryEntry, getIndexOf, getIndexOfAux, sortDictData,
      List.mergeSort]; try decide)

/-- C7.  Substring search: the `/index` filter keeps exactly the entries
whose lowercased definition contains the lowercased, trimmed search string
contiguously, in store order (a sublist of the store), and an empty result is
an ordinary reply; concretely, `fruit` matches both demo entries and `zzz`
matches none. -/
theorem index_search_correct (data : List Entry) (raw : String) :
    (indexMatches data raw).Sublist data
    ∧ (∀ en, en ∈ indexMatches data raw ↔
        en ∈ data ∧ ∃ s t, (jsToLower en.definition).data
            = s ++ (jsToLower (jsTrim raw)).data ++ t)
    ∧ indexMatches [Entry.mk ("apple") ("a red fruit") ("u1"),
          Entry.mk ("banana") ("a yellow fruit") ("u2")] ("fruit")
        = [Entry.mk ("apple") ("a red fruit") ("u1"),
          Entry.mk ("banana") ("a yellow fruit") ("u2")]
    ∧ indexMatches [Entry.mk ("apple") ("a red fruit") ("u1"),
          Entry.mk ("banana") ("a yellow fruit") ("u2")] ("zzz") = []
    ∧ handleIndexCommand [Entry.mk ("apple") ("a red fruit") ("u1"),
          Entry.mk ("banana") ("a yellow fruit") ("u2")] ("zzz")
        = ("Search string zzz not found in entries.") := by
  refine ⟨List.filter_sublist data, ?_, by decide, by decide, by decide⟩
  intro en
  rw [show indexMatches data raw
      = data.filter (fun en => jsIncludes (jsToLower en.definition) (jsToLower (jsTrim raw)))
    from rfl]
  rw [List.mem_filter]
  exact and_congr_right fun _ => jsIncludes_iff _ _

/-- C9.  Input trimming: each handler trims its user-supplied strings before
use, so a request is indistinguishable from its trimmed form — replies and
resulting stores coincide — and the only entry `/define` can add carries the
trimmed phrase and the trimmed definition. -/
theorem handlers_trim_input (data : List Entry) (s p d u : String) :
    handleDictCommand data s = handleDictCommand data (jsTrim s)
    ∧ handleDefineCommand data p d u = handleDefineCommand data (jsTrim p) (jsTrim d) u
    ∧ handleIndexCommand data s = handleIndexCommand data (jsTrim s)
    ∧ (∀ en ∈ (handleDefineCommand data p d u).dictData,
        en ∈ data ∨ en = Entry.mk (jsTrim p) (jsTrim d) u) := by
  refine ⟨?_, ?_, ?_, ?_⟩
  · simp only [handleDictCommand, jsTrim_idem]
  · simp only [handleDefineCommand, jsTrim_idem]
  · simp only [handleIndexCommand, indexMatches, jsTrim_idem]
  · intro en hen
    cases hfind : findDictionaryEntry data (jsTrim p) with
    | some r =>
      simp only [handleDefineCommand, hfind] at hen
      exact Or.inl hen
    | none =>
      simp only [handleDefineCommand, hfind] at hen
      have hmem := (sortDictData_perm _).mem_iff.mp hen
      rcases List.mem_append.mp hmem with h | h
      · exact Or.inl h
      · right; simpa using h

/-- C10.  Memory safety and termination of the binary search: from the real
entry bounds (`start = 0`, `end = length - 1`) the bounds-checked twin of the
loop never reads out of range and agrees with the loop, for every array and
target; and for every window the probe `floor((start+end)/2)` stays inside
`[start, end]` while `end - start` strictly shrinks on both recursive calls —
the measure Lean itself checks to accept the loop as terminating. -/
theorem binary_search_safe (array : List Entry) (target : String) :
    getIndexOfCheckedAux array target 0 ((array.length : Int) - 1)
        = some (getIndexOf array target)
    ∧ (∀ (s : Int) (k : Nat),
        s ≤ (s + (s + k)) / 2
        ∧ (s + (s + k)) / 2 ≤ s + k
        ∧ ((s + k) + 1 - ((s + (s + k)) / 2 + 1)).toNat < ((s + k) + 1 - s).toNat
        ∧ ((s + (s + k)) / 2 - s).toNat < ((s + k) + 1 - s).toNat) := by
  refine ⟨getIndexOfCheckedAux_eq array target 0 _ (by omega) (by omega), ?_⟩
  intro s k
  refine ⟨by omega, by omega, by omega, by omega⟩
